import Mathlib

/-!
Verification of the portfolio scheduler (`src/backend_scheduler.py`).

The Python module is shallowly embedded:
* Python floats are modelled as rationals (`ℚ`); `round(x, 2)` is modelled by
  `round2`, implementing round-half-to-even as Python's `round` does.
* the `positions` dict is modelled as an association list with unique keys
  (`keyCount ps t ≤ 1` models the dict's key uniqueness where it matters);
* `Portfolio.apply_decision`, `Portfolio.update_price`, `Portfolio.save`,
  `Portfolio.load`, `run_once` and `get_next_run` are translated line by line.
-/

/-- One dict entry of `Portfolio.positions`: `{"shares": float, "value": float}`. -/
structure Position where
  shares : ℚ
  value : ℚ
  deriving DecidableEq, Repr

/-- The `Portfolio` object: `cash` and the `positions` dict. -/
structure Portfolio where
  cash : ℚ
  positions : List (String × Position)
  deriving DecidableEq, Repr

/-- A decision payload after coercion: `decision.get("action")` and
`int(decision.get("quantity", 0))`. -/
structure Decision where
  action : Option String
  quantity : ℤ
  deriving DecidableEq, Repr

/-- Dict lookup `positions[ticker]` / `ticker in positions` (first matching key). -/
def findPos : List (String × Position) → String → Option Position
  | [], _ => none
  | (k, v) :: rest, t => if k = t then some v else findPos rest t

/-- Dict write `positions[ticker] = p`: replace the first matching key, or append. -/
def setPos : List (String × Position) → String → Position → List (String × Position)
  | [], t, p => [(t, p)]
  | (k, v) :: rest, t, p => if k = t then (t, p) :: rest else (k, v) :: setPos rest t p

/-- Dict removal `positions.pop(ticker, None)`: drop the first matching key. -/
def erasePos : List (String × Position) → String → List (String × Position)
  | [], _ => []
  | (k, v) :: rest, t => if k = t then rest else (k, v) :: erasePos rest t

/-- Number of entries carrying key `t`; a Python dict always has `keyCount ≤ 1`. -/
def keyCount : List (String × Position) → String → ℕ
  | [], _ => 0
  | (k, _) :: rest, t => (if k = t then 1 else 0) + keyCount rest t

/-- Floor of a rational, written out computably (`den` is positive, so the
floor-division of `num` by `den` is the mathematical floor). -/
def ratFloor (x : ℚ) : ℤ := x.num.fdiv x.den

/-- Round-half-to-even to an integer, the semantics of Python's `round(x)`. -/
def roundHalfEven (x : ℚ) : ℤ :=
  let f := ratFloor x
  let r := x - (f : ℚ)
  if r < 1 / 2 then f
  else if 1 / 2 < r then f + 1
  else if f % 2 = 0 then f else f + 1

/-- Python's `round(x, 2)`. -/
def round2 (x : ℚ) : ℚ := (roundHalfEven (x * 100) : ℚ) / 100

/-- `Portfolio.apply_decision(ticker, decision, price)` (source lines 44-63). -/
def apply_decision (port : Portfolio) (ticker : String) (decision : Decision)
    (price : ℚ) : Portfolio :=
  let qty : ℤ := decision.quantity
  let positions0 :=
    if findPos port.positions ticker = none
    then setPos port.positions ticker ⟨0, 0⟩
    else port.positions
  let shares := ((findPos positions0 ticker).getD ⟨0, 0⟩).shares
  if decision.action = some "buy" then
    Portfolio.mk (port.cash - qty * price)
      (setPos positions0 ticker ⟨shares + qty, round2 ((shares + qty) * price)⟩)
  else if decision.action = some "sell" then
    if shares - qty ≤ 0 then
      Portfolio.mk (port.cash + qty * price) (erasePos positions0 ticker)
    else
      Portfolio.mk (port.cash + qty * price)
        (setPos positions0 ticker ⟨shares - qty, round2 ((shares - qty) * price)⟩)
  else
    Portfolio.mk port.cash (setPos positions0 ticker ⟨shares, round2 (shares * price)⟩)

/-- `Portfolio.update_price(ticker, price)` (source lines 65-68). -/
def update_price (port : Portfolio) (ticker : String) (price : ℚ) : Portfolio :=
  match findPos port.positions ticker with
  | some pos =>
    Portfolio.mk port.cash
      (setPos port.positions ticker ⟨pos.shares, round2 (pos.shares * price)⟩)
  | none => port

/-- Content of the persisted JSON file `{cash, positions}`; each field may be
absent in a hand-made file, hence the `Option`s. JSON number (de)serialization
round-trips floats exactly, so it is modelled as the identity on the data. -/
structure SavedFile where
  cash : Option ℚ
  positions : Option (List (String × Position))
  deriving DecidableEq, Repr

/-- `Portfolio.save(path)` (source lines 40-42): the file content written. -/
def Portfolio.save (p : Portfolio) : SavedFile :=
  ⟨some p.cash, some p.positions⟩

/-- `Portfolio.load(path, default_cash)` (source lines 29-38): `none` models a
missing file, the `getD`s model `data.get("cash", default_cash)` and
`data.get("positions", {})`. -/
def Portfolio.load (file : Option SavedFile) (default_cash : ℚ) : Portfolio :=
  match file with
  | some data => ⟨data.cash.getD default_cash, data.positions.getD []⟩
  | none => ⟨default_cash, []⟩

/-! ### Association-list lemmas -/

theorem findPos_setPos_self (ps : List (String × Position)) (t : String) (v : Position) :
    findPos (setPos ps t v) t = some v := by
  induction ps with
  | nil => simp [setPos, findPos]
  | cons e rest ih =>
    obtain ⟨k, w⟩ := e
    by_cases hk : k = t
    · simp [setPos, hk, findPos]
    · simp [setPos, hk, findPos, ih]

theorem findPos_setPos_ne (ps : List (String × Position)) (t t' : String) (v : Position)
    (h : t' ≠ t) : findPos (setPos ps t v) t' = findPos ps t' := by
  induction ps with
  | nil =>
    simp only [setPos, findPos]
    rw [if_neg (fun hh : t = t' => h hh.symm)]
  | cons e rest ih =>
    obtain ⟨k, w⟩ := e
    by_cases hk : k = t
    · simp only [setPos, if_pos hk, findPos]
      rw [if_neg (fun hh : t = t' => h hh.symm),
        if_neg (fun hh : k = t' => h (hk.symm.trans hh).symm)]
    · simp only [setPos, if_neg hk, findPos]
      by_cases hk' : k = t'
      · rw [if_pos hk', if_pos hk']
      · rw [if_neg hk', if_neg hk', ih]

theorem setPos_setPos (ps : List (String × Position)) (t : String) (v w : Position) :
    setPos (setPos ps t v) t w = setPos ps t w := by
  induction ps with
  | nil => simp [setPos]
  | cons e rest ih =>
    obtain ⟨k, u⟩ := e
    by_cases hk : k = t
    · simp [setPos, hk]
    · simp [setPos, hk, ih]

theorem mem_setPos (ps : List (String × Position)) (t : String) (v : Position)
    (e : String × Position) (h : e ∈ setPos ps t v) : e = (t, v) ∨ e ∈ ps := by
  induction ps with
  | nil => simpa [setPos] using h
  | cons f rest ih =>
    obtain ⟨k, w⟩ := f
    by_cases hk : k = t
    · simp only [setPos, hk, if_pos rfl] at h
      rcases List.mem_cons.mp h with h | h
      · exact Or.inl h
      · exact Or.inr (List.mem_cons_of_mem _ h)
    · simp only [setPos, hk, if_neg hk] at h
      rcases List.mem_cons.mp h with h | h
      · exact Or.inr (by simp [h])
      · rcases ih h with h | h
        · exact Or.inl h
        · exact Or.inr (List.mem_cons_of_mem _ h)

theorem mem_erasePos (ps : List (String × Position)) (t : String)
    (e : String × Position) (h : e ∈ erasePos ps t) : e ∈ ps := by
  induction ps with
  | nil => simp [erasePos] at h
  | cons f rest ih =>
    obtain ⟨k, w⟩ := f
    by_cases hk : k = t
    · simp only [erasePos, if_pos hk] at h
      exact List.mem_cons_of_mem _ h
    · simp only [erasePos, if_neg hk] at h
      rcases List.mem_cons.mp h with h | h
      · simp [h]
      · exact List.mem_cons_of_mem _ (ih h)

theorem keyCount_eq_zero_iff (ps : List (String × Position)) (t : String) :
    keyCount ps t = 0 ↔ findPos ps t = none := by
  induction ps with
  | nil => simp [keyCount, findPos]
  | cons e rest ih =>
    obtain ⟨k, w⟩ := e
    by_cases hk : k = t
    · simp [keyCount, findPos, hk]
    · simp [keyCount, findPos, hk, ih]

theorem keyCount_erasePos (ps : List (String × Position)) (t : String) :
    keyCount (erasePos ps t) t = keyCount ps t - 1 := by
  induction ps with
  | nil => simp [keyCount, erasePos]
  | cons e rest ih =>
    obtain ⟨k, w⟩ := e
    by_cases hk : k = t
    · simp [erasePos, hk, keyCount]
    · simp only [erasePos, if_neg hk, keyCount, ih]
      omega

theorem keyCount_setPos_le (ps : List (String × Position)) (t : String) (v : Position)
    (h : keyCount ps t ≤ 1) : keyCount (setPos ps t v) t ≤ 1 := by
  induction ps with
  | nil => simp [keyCount, setPos]
  | cons e rest ih =>
    obtain ⟨k, w⟩ := e
    by_cases hk : k = t
    · simp only [setPos, if_pos hk, keyCount, if_pos rfl] at *
      simpa using h
    · simp only [setPos, if_neg hk, keyCount, if_neg hk] at *
      have := ih (by omega)
      omega

theorem findPos_erasePos_self (ps : List (String × Position)) (t : String)
    (h : keyCount ps t ≤ 1) : findPos (erasePos ps t) t = none := by
  have h' := keyCount_erasePos ps t
  have : keyCount (erasePos ps t) t = 0 := by omega
  exact (keyCount_eq_zero_iff _ _).mp this

theorem erasePos_setPos_absent (ps : List (String × Position)) (t : String) (v : Position)
    (h : findPos ps t = none) : erasePos (setPos ps t v) t = ps := by
  induction ps with
  | nil => simp [setPos, erasePos]
  | cons e rest ih =>
    obtain ⟨k, w⟩ := e
    by_cases hk : k = t
    · simp [findPos, hk] at h
    · simp only [findPos, if_neg hk] at h
      simp [setPos, hk, erasePos, ih h]

theorem findPos_mem (ps : List (String × Position)) (t : String) (p : Position)
    (h : findPos ps t = some p) : (t, p) ∈ ps := by
  induction ps with
  | nil => simp [findPos] at h
  | cons e rest ih =>
    obtain ⟨k, w⟩ := e
    by_cases hk : k = t
    · simp only [findPos, if_pos hk] at h
      simp [← hk, ← Option.some_inj.mp h]
    · simp only [findPos, if_neg hk] at h
      exact List.mem_cons_of_mem _ (ih h)

/-! ### Characterizations of `apply_decision`, one per source branch -/

/-- Shares currently recorded for `ticker` (`0` when absent): the
`pos.get("shares", 0.0)` value the source works with. -/
def sharesOf (port : Portfolio) (ticker : String) : ℚ :=
  ((findPos port.positions ticker).getD ⟨0, 0⟩).shares

theorem apply_decision_buy_held (port : Portfolio) (t : String) (q : ℤ) (price : ℚ)
    (p : Position) (h : findPos port.positions t = some p) :
    apply_decision port t ⟨some "buy", q⟩ price =
      Portfolio.mk (port.cash - q * price)
        (setPos port.positions t ⟨p.shares + q, round2 ((p.shares + q) * price)⟩) := by
  simp [apply_decision, h]

theorem apply_decision_buy_absent (port : Portfolio) (t : String) (q : ℤ) (price : ℚ)
    (h : findPos port.positions t = none) :
    apply_decision port t ⟨some "buy", q⟩ price =
      Portfolio.mk (port.cash - q * price)
        (setPos port.positions t ⟨(q : ℚ), round2 ((q : ℚ) * price)⟩) := by
  simp [apply_decision, h, findPos_setPos_self, setPos_setPos]

theorem apply_decision_sell_held_pop (port : Portfolio) (t : String) (q : ℤ) (price : ℚ)
    (p : Position) (h : findPos port.positions t = some p) (h2 : p.shares - q ≤ 0) :
    apply_decision port t ⟨some "sell", q⟩ price =
      Portfolio.mk (port.cash + q * price) (erasePos port.positions t) := by
  simp [apply_decision, h, h2]

theorem apply_decision_sell_held_keep (port : Portfolio) (t : String) (q : ℤ) (price : ℚ)
    (p : Position) (h : findPos port.positions t = some p) (h2 : ¬p.shares - q ≤ 0) :
    apply_decision port t ⟨some "sell", q⟩ price =
      Portfolio.mk (port.cash + q * price)
        (setPos port.positions t ⟨p.shares - q, round2 ((p.shares - q) * price)⟩) := by
  simp [apply_decision, h, h2]

theorem apply_decision_sell_absent_pop (port : Portfolio) (t : String) (q : ℤ) (price : ℚ)
    (h : findPos port.positions t = none) (h2 : 0 ≤ q) :
    apply_decision port t ⟨some "sell", q⟩ price =
      Portfolio.mk (port.cash + q * price) port.positions := by
  have h2' : ¬(q < 0) := not_lt.mpr h2
  simp [apply_decision, h, findPos_setPos_self, h2, h2',
    erasePos_setPos_absent port.positions t _ h]

theorem apply_decision_sell_absent_keep (port : Portfolio) (t : String) (q : ℤ) (price : ℚ)
    (h : findPos port.positions t = none) (h2 : q < 0) :
    apply_decision port t ⟨some "sell", q⟩ price =
      Portfolio.mk (port.cash + q * price)
        (setPos port.positions t ⟨0 - q, round2 ((0 - q) * price)⟩) := by
  have h2' : ¬(0 ≤ q) := not_le.mpr h2
  simp [apply_decision, h, findPos_setPos_self, h2, h2', setPos_setPos]

theorem apply_decision_other (port : Portfolio) (t : String) (d : Decision) (price : ℚ)
    (hb : d.action ≠ some "buy") (hs : d.action ≠ some "sell") :
    apply_decision port t d price =
      Portfolio.mk port.cash
        (setPos port.positions t ⟨sharesOf port t, round2 (sharesOf port t * price)⟩) := by
  cases hfp : findPos port.positions t with
  | some p => simp [apply_decision, hfp, hb, hs, sharesOf]
  | none => simp [apply_decision, hfp, hb, hs, sharesOf, findPos_setPos_self, setPos_setPos]

/-! ### C1: the claimed strict-positivity invariant -/

/-- The invariant as the spec states it: every entry has strictly positive shares. -/
def sharesPos (port : Portfolio) : Prop := ∀ e ∈ port.positions, 0 < e.2.shares

/-- The invariant the code actually maintains: no entry has negative shares. -/
def sharesNonneg (port : Portfolio) : Prop := ∀ e ∈ port.positions, 0 ≤ e.2.shares

instance (port : Portfolio) : Decidable (sharesPos port) :=
  List.decidableBAll _ port.positions

instance (port : Portfolio) : Decidable (sharesNonneg port) :=
  List.decidableBAll _ port.positions

/-- C1 counterexample: a decision whose action is neither buy nor sell ("hold"),
applied to a ticker with no position, creates and retains an entry with
`shares = 0`, so `applyDecision` does not preserve the claimed `shares > 0`
invariant. -/
theorem apply_decision_zero_share_entry :
    sharesPos ⟨1000, []⟩ ∧
    ¬ sharesPos (apply_decision ⟨1000, []⟩ "A" ⟨some "hold", 0⟩ 50) ∧
    (findPos (apply_decision ⟨1000, []⟩ "A" ⟨some "hold", 0⟩ 50).positions "A").map
      Position.shares = some 0 := by
  refine ⟨?_, ?_, ?_⟩
  · simp [sharesPos]
  · simp [sharesPos, apply_decision, findPos, setPos]
  · simp [apply_decision, findPos, setPos]

/-- C1 (amended): the operations preserve `shares ≥ 0` (for non-negative decision
quantities), and a sell never leaves the touched ticker with `shares ≤ 0`; but
strict positivity is not invariant, since a non-buy/sell (or zero-quantity buy)
decision on an unheld ticker creates and keeps a `shares = 0` entry. -/
theorem portfolio_shares_nonneg_invariant (port : Portfolio) (t t2 : String)
    (d : Decision) (price p2 dc : ℚ)
    (hq : 0 ≤ d.quantity) (hk : keyCount port.positions t ≤ 1)
    (hinv : sharesNonneg port) :
    sharesNonneg (apply_decision port t d price) ∧
    sharesNonneg (update_price port t2 p2) ∧
    sharesNonneg (Portfolio.load (some (Portfolio.save port)) dc) ∧
    (d.action = some "sell" →
      ∀ p, findPos (apply_decision port t d price).positions t = some p →
        0 < p.shares) := by
  obtain ⟨a, q⟩ := d
  have hq' : (0 : ℚ) ≤ (q : ℚ) := by exact_mod_cast hq
  refine ⟨?_, ?_, ?_, ?_⟩
  · by_cases hb : a = some "buy"
    · subst hb
      cases hfp : findPos port.positions t with
      | some p =>
        rw [apply_decision_buy_held port t q price p hfp]
        intro e he
        rcases mem_setPos _ _ _ _ he with he | he
        · have hp : 0 ≤ p.shares := hinv _ (findPos_mem _ _ _ hfp)
          subst he
          simp only [Position.mk.injEq]
          simp
          linarith
        · exact hinv _ he
      | none =>
        rw [apply_decision_buy_absent port t q price hfp]
        intro e he
        rcases mem_setPos _ _ _ _ he with he | he
        · subst he
          simpa using hq'
        · exact hinv _ he
    · by_cases hs : a = some "sell"
      · subst hs
        cases hfp : findPos port.positions t with
        | some p =>
          by_cases hle : p.shares - q ≤ 0
          · rw [apply_decision_sell_held_pop port t q price p hfp hle]
            intro e he
            exact hinv _ (mem_erasePos _ _ _ he)
          · rw [apply_decision_sell_held_keep port t q price p hfp hle]
            intro e he
            rcases mem_setPos _ _ _ _ he with he | he
            · subst he
              simp
              linarith [not_le.mp hle]
            · exact hinv _ he
        | none =>
          rw [apply_decision_sell_absent_pop port t q price hfp hq]
          intro e he
          exact hinv _ he
      · rw [apply_decision_other port t ⟨a, q⟩ price hb hs]
        intro e he
        rcases mem_setPos _ _ _ _ he with he | he
        · subst he
          simp only []
          cases hfp : findPos port.positions t with
          | some p =>
            have := hinv _ (findPos_mem _ _ _ hfp)
            simpa [sharesOf, hfp] using this
          | none => simp [sharesOf, hfp]
        · exact hinv _ he
  · cases hfp : findPos port.positions t2 with
    | some p =>
      simp only [update_price, hfp]
      intro e he
      rcases mem_setPos _ _ _ _ he with he | he
      · subst he
        simpa using hinv _ (findPos_mem _ _ _ hfp)
      · exact hinv _ he
    | none => simpa [update_price, hfp] using hinv
  · intro e he
    exact hinv e he
  · intro hsell p hp
    have hsell' : a = some "sell" := hsell
    subst hsell'
    cases hfp : findPos port.positions t with
    | some pp =>
      by_cases hle : pp.shares - q ≤ 0
      · rw [apply_decision_sell_held_pop port t q price pp hfp hle] at hp
        rw [show (Portfolio.mk (port.cash + q * price)
            (erasePos port.positions t)).positions = erasePos port.positions t from rfl,
          findPos_erasePos_self port.positions t hk] at hp
        cases hp
      · rw [apply_decision_sell_held_keep port t q price pp hfp hle] at hp
        rw [show (Portfolio.mk (port.cash + q * price)
            (setPos port.positions t
              ⟨pp.shares - q, round2 ((pp.shares - q) * price)⟩)).positions =
            setPos port.positions t
              ⟨pp.shares - q, round2 ((pp.shares - q) * price)⟩ from rfl,
          findPos_setPos_self] at hp
        have hp' := Option.some_inj.mp hp
        rw [← hp']
        simp
        linarith [not_le.mp hle]
    | none =>
      rw [apply_decision_sell_absent_pop port t q price hfp hq] at hp
      simp [hfp] at hp

/-- C1 witness: the invariant-preservation theorem applied at a concrete sell on
a held position and a price refresh of an unheld ticker. -/
theorem portfolio_shares_nonneg_invariant_witness :
    sharesNonneg (apply_decision ⟨100, [("A", ⟨2, 20⟩)]⟩ "A" ⟨some "sell", 1⟩ 10) ∧
    sharesNonneg (update_price ⟨100, [("A", ⟨2, 20⟩)]⟩ "B" 10) := by
  have h := portfolio_shares_nonneg_invariant ⟨100, [("A", ⟨2, 20⟩)]⟩ "A" "B"
    ⟨some "sell", 1⟩ 10 10 50 (by decide) (by norm_num [keyCount])
    (by norm_num [sharesNonneg])
  exact ⟨h.1, h.2.1⟩

/-- C3 counterexample: a non-buy/sell decision on a ticker with no position is
not a no-op on the ledger: a fresh `shares = 0` entry appears in `positions`. -/
theorem apply_decision_hold_creates_entry :
    findPos (Portfolio.mk 100 []).positions "A" = none ∧
    (findPos (apply_decision ⟨100, []⟩ "A" ⟨some "hold", 0⟩ 7).positions "A").map
      Position.shares = some 0 := by
  constructor
  · simp [findPos]
  · simp [apply_decision, findPos, setPos]

/-- C3 (amended): a decision whose action is neither buy nor sell leaves cash
unchanged, leaves every other ticker's entry unchanged, and sets the touched
ticker's entry to its previous shares (`0` if absent, thereby creating a fresh
zero-share entry) with the value refreshed from the given price. -/
theorem apply_decision_other_frame (port : Portfolio) (t : String) (d : Decision)
    (price : ℚ) (hb : d.action ≠ some "buy") (hs : d.action ≠ some "sell") :
    (apply_decision port t d price).cash = port.cash ∧
    (∀ t', t' ≠ t →
      findPos (apply_decision port t d price).positions t' =
        findPos port.positions t') ∧
    findPos (apply_decision port t d price).positions t =
      some ⟨sharesOf port t, round2 (sharesOf port t * price)⟩ := by
  rw [apply_decision_other port t d price hb hs]
  refine ⟨rfl, ?_, findPos_setPos_self _ _ _⟩
  intro t' ht'
  exact findPos_setPos_ne _ _ _ _ ht'

/-- C3 witness: the frame theorem applied to a "hold" decision on a held ticker. -/
theorem apply_decision_other_frame_witness :
    (apply_decision ⟨100, [("A", ⟨2, 20⟩)]⟩ "A" ⟨some "hold", 3⟩ 10).cash = 100 ∧
    findPos (apply_decision ⟨100, [("A", ⟨2, 20⟩)]⟩ "A" ⟨some "hold", 3⟩ 10).positions
      "A" = some ⟨2, round2 (2 * 10)⟩ := by
  have h := apply_decision_other_frame ⟨100, [("A", ⟨2, 20⟩)]⟩ "A" ⟨some "hold", 3⟩ 10
    (by decide) (by decide)
  refine ⟨h.1, ?_⟩
  have h2 := h.2.2
  norm_num [sharesOf, findPos] at h2 ⊢

/-- C6: a sell of quantity `q` at price `p` always credits `cash += q * p` and
subtracts `q` from the held shares (`0` if absent); if the resulting shares are
`≤ 0` the entry is deleted outright — oversell is not rejected and the
shortfall is not credited back — otherwise the entry keeps the reduced shares. -/
theorem apply_decision_sell_oversell (port : Portfolio) (t : String) (q : ℤ)
    (price : ℚ) (hk : keyCount port.positions t ≤ 1) :
    (apply_decision port t ⟨some "sell", q⟩ price).cash = port.cash + q * price ∧
    (sharesOf port t - q ≤ 0 →
      findPos (apply_decision port t ⟨some "sell", q⟩ price).positions t = none) ∧
    (0 < sharesOf port t - q →
      findPos (apply_decision port t ⟨some "sell", q⟩ price).positions t =
        some ⟨sharesOf port t - q, round2 ((sharesOf port t - q) * price)⟩) := by
  cases hfp : findPos port.positions t with
  | some p =>
    have hsh : sharesOf port t = p.shares := by simp [sharesOf, hfp]
    by_cases hle : p.shares - q ≤ 0
    · rw [apply_decision_sell_held_pop port t q price p hfp hle]
      refine ⟨rfl, fun _ => findPos_erasePos_self _ _ hk, fun hgt => ?_⟩
      rw [hsh] at hgt
      linarith
    · rw [apply_decision_sell_held_keep port t q price p hfp hle]
      refine ⟨rfl, fun hle2 => ?_, fun _ => ?_⟩
      · rw [hsh] at hle2
        exact absurd hle2 hle
      · rw [hsh]
        exact findPos_setPos_self _ _ _
  | none =>
    have hsh : sharesOf port t = 0 := by simp [sharesOf, hfp]
    by_cases hq0 : 0 ≤ q
    · rw [apply_decision_sell_absent_pop port t q price hfp hq0]
      refine ⟨rfl, fun _ => hfp, fun hgt => ?_⟩
      rw [hsh] at hgt
      have : (0 : ℚ) ≤ (q : ℚ) := by exact_mod_cast hq0
      linarith
    · push_neg at hq0
      rw [apply_decision_sell_absent_keep port t q price hfp hq0]
      refine ⟨rfl, fun hle2 => ?_, fun _ => ?_⟩
      · rw [hsh] at hle2
        have : ((q : ℚ)) < 0 := by exact_mod_cast hq0
        linarith
      · rw [hsh]
        exact findPos_setPos_self _ _ _

/-- C6 witness: the spec's example — selling 100 shares at price 150 from a
position of 50 shares removes the entry and credits `cash += 100 * 150`. -/
theorem apply_decision_sell_oversell_witness :
    (apply_decision ⟨0, [("AAPL", ⟨50, 0⟩)]⟩ "AAPL" ⟨some "sell", 100⟩ 150).cash =
      0 + 100 * 150 ∧
    findPos (apply_decision ⟨0, [("AAPL", ⟨50, 0⟩)]⟩ "AAPL"
      ⟨some "sell", 100⟩ 150).positions "AAPL" = none := by
  have h := apply_decision_sell_oversell ⟨0, [("AAPL", ⟨50, 0⟩)]⟩ "AAPL" 100 150
    (by norm_num [keyCount])
  refine ⟨h.1, h.2.1 ?_⟩
  norm_num [sharesOf, findPos]

/-- C7: `save` followed by `load` (any default cash) reproduces the portfolio
snapshot exactly; the two-decimal rounding was already applied to each `value`
when it was computed, so no further change occurs. -/
theorem save_load_roundtrip (port : Portfolio) (default_cash : ℚ) :
    Portfolio.load (some (Portfolio.save port)) default_cash = port := rfl

/-! ### C2: sequences of buy/sell decisions on one ticker -/

/-- Repeated `apply_decision` on a fixed ticker over (decision, price) pairs. -/
def apply_seq (port : Portfolio) (t : String) : List (Decision × ℚ) → Portfolio
  | [] => port
  | (d, p) :: rest => apply_seq (apply_decision port t d p) t rest

/-- Net signed quantity of a decision sequence: total bought minus total sold. -/
def netShares : List (Decision × ℚ) → ℤ
  | [] => 0
  | (d, _) :: rest =>
    (if d.action = some "buy" then d.quantity
     else if d.action = some "sell" then -d.quantity else 0) + netShares rest

/-- The sequence refuting C2: sell 1 then buy 1, on a fresh ticker. -/
def cexSeq : List (Decision × ℚ) := [(⟨some "sell", 1⟩, 10), (⟨some "buy", 1⟩, 10)]

/-- C2 counterexample: after `[sell 1, buy 1]` on a fresh ticker the net sum is
`0`, so the claim demands the ticker be absent, but the code leaves a position
of 1 share: the oversell deletion forgot the negative balance. -/
theorem apply_seq_net_counterexample :
    netShares cexSeq = 0 ∧
    (findPos (apply_seq ⟨100, []⟩ "A" cexSeq).positions "A").map Position.shares =
      some 1 := by
  constructor
  · decide
  · norm_num [cexSeq, apply_seq, apply_decision, findPos, setPos, erasePos]

theorem netShares_nil : netShares [] = 0 := rfl

theorem netShares_cons_buy (q : ℤ) (pr : ℚ) (rest : List (Decision × ℚ)) :
    netShares ((⟨some "buy", q⟩, pr) :: rest) = q + netShares rest := by
  simp [netShares]

theorem netShares_cons_sell (q : ℤ) (pr : ℚ) (rest : List (Decision × ℚ)) :
    netShares ((⟨some "sell", q⟩, pr) :: rest) = -q + netShares rest := by
  simp [netShares]

theorem apply_seq_tracked (ds : List (Decision × ℚ)) (t : String) :
    ∀ (port : Portfolio) (c : ℤ), 0 < c →
    (∃ p, findPos port.positions t = some p ∧ p.shares = (c : ℚ)) →
    keyCount port.positions t ≤ 1 →
    (∀ e ∈ ds, e.1.action = some "buy" ∨ e.1.action = some "sell") →
    (∀ e ∈ ds, 0 < e.1.quantity) →
    (∀ i, 0 < i → i < ds.length → 0 < c + netShares (ds.take i)) →
    ((0 < c + netShares ds →
      (findPos (apply_seq port t ds).positions t).map Position.shares =
        some ((c + netShares ds : ℤ) : ℚ)) ∧
     (c + netShares ds ≤ 0 →
      findPos (apply_seq port t ds).positions t = none)) := by
  induction ds with
  | nil =>
    intro port c hc hex hk hbs hqs hpre
    obtain ⟨p, hfp, hsh⟩ := hex
    constructor
    · intro _
      simp [apply_seq, netShares, hfp, hsh]
    · intro hle
      simp [netShares] at hle
      omega
  | cons hd rest ih =>
    intro port c hc hex hk hbs hqs hpre
    obtain ⟨p, hfp, hsh⟩ := hex
    obtain ⟨d, pr⟩ := hd
    obtain ⟨da, dq⟩ := d
    have hq1 : (0 : ℤ) < dq := hqs _ (List.mem_cons_self _ _)
    rcases hbs _ (List.mem_cons_self _ _) with ha | ha
    · -- buy
      have ha' : da = some "buy" := ha
      subst ha'
      have happ := apply_decision_buy_held port t dq pr p hfp
      simp only [apply_seq, happ]
      rw [netShares_cons_buy]
      have hfp' : findPos
          (setPos port.positions t
            ⟨p.shares + dq, round2 ((p.shares + dq) * pr)⟩) t =
          some ⟨p.shares + dq, round2 ((p.shares + dq) * pr)⟩ :=
        findPos_setPos_self _ _ _
      have hIH := ih (Portfolio.mk (port.cash - dq * pr)
          (setPos port.positions t ⟨p.shares + dq, round2 ((p.shares + dq) * pr)⟩))
        (c + dq) (by omega)
        ⟨_, hfp', by rw [hsh]; push_cast; ring⟩
        (keyCount_setPos_le _ _ _ hk)
        (fun e he => hbs e (List.mem_cons_of_mem _ he))
        (fun e he => hqs e (List.mem_cons_of_mem _ he))
        (by
          intro i hi hlen
          have hstep := hpre (i + 1) (by omega) (by simp only [List.length_cons]; omega)
          rw [List.take_succ_cons, netShares_cons_buy] at hstep
          omega)
      constructor
      · intro hpos
        have h1 := hIH.1 (by omega)
        rw [show c + dq + netShares rest = c + (dq + netShares rest) from by ring] at h1
        exact h1
      · intro hle
        exact hIH.2 (by omega)
    · -- sell
      have ha' : da = some "sell" := ha
      subst ha'
      by_cases hcle : c - dq ≤ 0
      · -- the position is deleted by this sell
        have hshle : p.shares - (dq : ℚ) ≤ 0 := by
          rw [hsh]
          have : ((c : ℚ)) ≤ (dq : ℚ) := by exact_mod_cast (by omega : c ≤ dq)
          linarith
        have happ := apply_decision_sell_held_pop port t dq pr p hfp hshle
        cases rest with
        | nil =>
          simp only [apply_seq, happ]
          rw [netShares_cons_sell]
          constructor
          · intro hpos
            exfalso
            simp [netShares] at hpos
            omega
          · intro _
            exact findPos_erasePos_self _ _ hk
        | cons r rs =>
          exfalso
          have hstep := hpre 1 (by omega) (by simp)
          simp [netShares] at hstep
          omega
      · -- the position survives this sell
        have hshgt : ¬p.shares - (dq : ℚ) ≤ 0 := by
          rw [hsh]
          have : ((dq : ℚ)) < (c : ℚ) := by exact_mod_cast (by omega : dq < c)
          intro hcon
          linarith
        have happ := apply_decision_sell_held_keep port t dq pr p hfp hshgt
        simp only [apply_seq, happ]
        rw [netShares_cons_sell]
        have hfp' : findPos
            (setPos port.positions t
              ⟨p.shares - dq, round2 ((p.shares - dq) * pr)⟩) t =
            some ⟨p.shares - dq, round2 ((p.shares - dq) * pr)⟩ :=
          findPos_setPos_self _ _ _
        have hIH := ih (Portfolio.mk (port.cash + dq * pr)
            (setPos port.positions t ⟨p.shares - dq, round2 ((p.shares - dq) * pr)⟩))
          (c - dq) (by omega)
          ⟨_, hfp', by rw [hsh]; push_cast; ring⟩
          (keyCount_setPos_le _ _ _ hk)
          (fun e he => hbs e (List.mem_cons_of_mem _ he))
          (fun e he => hqs e (List.mem_cons_of_mem _ he))
          (by
            intro i hi hlen
            have hstep := hpre (i + 1) (by omega) (by simp only [List.length_cons]; omega)
            rw [List.take_succ_cons, netShares_cons_sell] at hstep
            omega)
        constructor
        · intro hpos
          have h1 := hIH.1 (by omega)
          rw [show c - dq + netShares rest = c + (-dq + netShares rest) from by ring] at h1
          exact h1
        · intro hle
          exact hIH.2 (by omega)

/-- C2 (amended): for sequences of buy/sell decisions with positive quantities
on a ticker that starts absent, provided every proper non-empty prefix has a
positive net sum (so no intermediate sell wipes the position), the final shares
equal total bought minus total sold, and the ticker is absent when that sum is
`≤ 0`. Without the prefix proviso the claim fails (see the counterexample):
an oversell deletes the entry and the negative balance is forgotten. -/
theorem apply_seq_net_shares (port : Portfolio) (t : String) (ds : List (Decision × ℚ))
    (h0 : findPos port.positions t = none)
    (hbs : ∀ e ∈ ds, e.1.action = some "buy" ∨ e.1.action = some "sell")
    (hqs : ∀ e ∈ ds, 0 < e.1.quantity)
    (hpre : ∀ i, 0 < i → i < ds.length → 0 < netShares (ds.take i)) :
    (0 < netShares ds →
      (findPos (apply_seq port t ds).positions t).map Position.shares =
        some ((netShares ds : ℤ) : ℚ)) ∧
    (netShares ds ≤ 0 → findPos (apply_seq port t ds).positions t = none) := by
  have hk : keyCount port.positions t ≤ 1 := by
    have := (keyCount_eq_zero_iff port.positions t).mpr h0
    omega
  cases ds with
  | nil =>
    constructor
    · intro hpos
      rw [netShares_nil] at hpos
      omega
    · intro _
      simpa [apply_seq] using h0
  | cons hd rest =>
    obtain ⟨d, pr⟩ := hd
    obtain ⟨da, dq⟩ := d
    have hq1 : (0 : ℤ) < dq := hqs _ (List.mem_cons_self _ _)
    rcases hbs _ (List.mem_cons_self _ _) with ha | ha
    · -- the sequence opens with a buy
      have ha' : da = some "buy" := ha
      subst ha'
      have happ := apply_decision_buy_absent port t dq pr h0
      simp only [apply_seq, happ]
      rw [netShares_cons_buy]
      have hfp' : findPos
          (setPos port.positions t ⟨(dq : ℚ), round2 ((dq : ℚ) * pr)⟩) t =
          some ⟨(dq : ℚ), round2 ((dq : ℚ) * pr)⟩ := findPos_setPos_self _ _ _
      exact apply_seq_tracked rest t
        (Portfolio.mk (port.cash - dq * pr)
          (setPos port.positions t ⟨(dq : ℚ), round2 ((dq : ℚ) * pr)⟩))
        dq hq1 ⟨_, hfp', rfl⟩
        (keyCount_setPos_le _ _ _ hk)
        (fun e he => hbs e (List.mem_cons_of_mem _ he))
        (fun e he => hqs e (List.mem_cons_of_mem _ he))
        (by
          intro i hi hlen
          have hstep := hpre (i + 1) (by omega) (by simp only [List.length_cons]; omega)
          rw [List.take_succ_cons, netShares_cons_buy] at hstep
          omega)
    · -- the sequence opens with a sell on the absent ticker
      have ha' : da = some "sell" := ha
      subst ha'
      have happ := apply_decision_sell_absent_pop port t dq pr h0 (le_of_lt hq1)
      cases rest with
      | nil =>
        simp only [apply_seq, happ]
        rw [netShares_cons_sell]
        constructor
        · intro hpos
          exfalso
          simp [netShares] at hpos
          omega
        · intro _
          exact h0
      | cons r rs =>
        exfalso
        have hstep := hpre 1 (by omega) (by simp)
        simp [netShares] at hstep
        omega

/-- C2 witness: buy 5 then sell 2 on a fresh ticker leaves 3 shares, the net sum. -/
theorem apply_seq_net_shares_witness :
    (findPos (apply_seq ⟨100, []⟩ "A"
      [(⟨some "buy", 5⟩, (10 : ℚ)), (⟨some "sell", 2⟩, 10)]).positions "A").map
      Position.shares = some ((3 : ℤ) : ℚ) := by
  have h := apply_seq_net_shares ⟨100, []⟩ "A"
    [(⟨some "buy", 5⟩, (10 : ℚ)), (⟨some "sell", 2⟩, 10)]
    (by simp [findPos])
    (by
      intro e he
      simp only [List.mem_cons, List.not_mem_nil, or_false] at he
      rcases he with rfl | rfl <;> simp)
    (by
      intro e he
      simp only [List.mem_cons, List.not_mem_nil, or_false] at he
      rcases he with rfl | rfl <;> simp)
    (by
      intro i hi hlen
      simp only [List.length_cons, List.length_nil] at hlen
      interval_cases i
      · decide)
  have h1 := h.1 (by decide)
  rw [show netShares [(⟨some "buy", 5⟩, (10 : ℚ)), (⟨some "sell", 2⟩, 10)] = 3 from by
    decide] at h1
  exact h1

/-! ### Schedule calculator (`get_next_run`, source lines 203-211) -/

/-- A `datetime`: day number (so that `day % 7` is Python's `weekday()`,
`0` = Monday) and time of day in minutes. -/
structure DateTime where
  day : ℤ
  time : ℕ
  deriving DecidableEq, Repr

/-- Python's `date.weekday()`: 0 = Monday, ..., 6 = Sunday. -/
def DateTime.weekday (dt : DateTime) : ℤ := dt.day % 7

/-- `datetime.combine(date, time)`. -/
def DateTime.combine (day : ℤ) (t : ℕ) : DateTime := ⟨day, t⟩

/-- Python `datetime` comparison `a < b`: lexicographic on (date, time). -/
def dtLtb (a b : DateTime) : Bool :=
  decide (a.day < b.day) || (decide (a.day = b.day) && decide (a.time < b.time))

/-- The strict order on instants, as a proposition. -/
def DateTime.lt (a b : DateTime) : Prop :=
  a.day < b.day ∨ (a.day = b.day ∧ a.time < b.time)

instance (a b : DateTime) : Decidable (DateTime.lt a b) :=
  inferInstanceAs (Decidable (a.day < b.day ∨ (a.day = b.day ∧ a.time < b.time)))

theorem dtLtb_eq_true_iff (a b : DateTime) : dtLtb a b = true ↔ DateTime.lt a b := by
  simp [dtLtb, DateTime.lt]

/-- The `while next_day.weekday() >= 5: next_day += timedelta(days=1)` loop
(source lines 209-210), returning the final day together with the number of
loop iterations executed. Termination is by the distance to the next weekday. -/
def skipWeekendAux (d : ℤ) : ℤ × ℕ :=
  if h : 5 ≤ d % 7 then
    let p := skipWeekendAux (d + 1)
    (p.1, p.2 + 1)
  else (d, 0)
termination_by ((if 5 ≤ d % 7 then 7 - d % 7 else 0)).toNat
decreasing_by
  simp_wf
  split_ifs
  all_goals omega

/-- The day on which the weekend-skip loop stops. -/
def skipWeekend (d : ℤ) : ℤ := (skipWeekendAux d).1

theorem skipWeekendAux_stop (d : ℤ) (h : d % 7 < 5) : skipWeekendAux d = (d, 0) := by
  unfold skipWeekendAux
  rw [dif_neg (by omega)]

theorem skipWeekendAux_step (d : ℤ) (h : 5 ≤ d % 7) :
    skipWeekendAux d = ((skipWeekendAux (d + 1)).1, (skipWeekendAux (d + 1)).2 + 1) := by
  conv_lhs => rw [skipWeekendAux.eq_def]
  rw [dif_pos h]

theorem skipWeekendAux_spec (d : ℤ) :
    (skipWeekendAux d).1 % 7 < 5 ∧ d ≤ (skipWeekendAux d).1 ∧
    (skipWeekendAux d).1 ≤ d + 2 ∧ (skipWeekendAux d).2 ≤ 2 := by
  have hcase : d % 7 < 5 ∨ d % 7 = 5 ∨ d % 7 = 6 := by omega
  rcases hcase with hc | hc | hc
  · rw [skipWeekendAux_stop d hc]
    refine ⟨?_, ?_, ?_, ?_⟩ <;> simp <;> omega
  · have h7 : (d + 1 + 1) % 7 < 5 := by omega
    rw [skipWeekendAux_step d (by omega), skipWeekendAux_step (d + 1) (by omega),
      skipWeekendAux_stop (d + 1 + 1) h7]
    refine ⟨?_, ?_, ?_, ?_⟩ <;> simp <;> omega
  · have h7 : (d + 1) % 7 < 5 := by omega
    rw [skipWeekendAux_step d (by omega), skipWeekendAux_stop (d + 1) h7]
    refine ⟨?_, ?_, ?_, ?_⟩ <;> simp <;> omega

/-- The `for t in run_times` loop (source lines 204-207): first mark strictly
later than `now` on `now`'s date, accepted only on a weekday. -/
def scanMarks (now : DateTime) : List ℕ → Option DateTime
  | [] => none
  | t :: rest =>
    let candidate := DateTime.combine now.day t
    if dtLtb now candidate && decide (candidate.weekday < 5) then some candidate
    else scanMarks now rest

/-- `get_next_run(now)` (source lines 203-211). `none` models the `IndexError`
that `run_times[0]` would raise on an empty list, a case `main` rules out. -/
def get_next_run (now : DateTime) (run_times : List ℕ) : Option DateTime :=
  match scanMarks now run_times with
  | some c => some c
  | none =>
    match run_times with
    | [] => none
    | t0 :: _ => some (DateTime.combine (skipWeekend (now.day + 1)) t0)

theorem scanMarks_sound (now : DateTime) :
    ∀ (rt : List ℕ) (c : DateTime), scanMarks now rt = some c →
      DateTime.lt now c ∧ c.weekday < 5 := by
  intro rt
  induction rt with
  | nil =>
    intro c hc
    simp [scanMarks] at hc
  | cons t rest ih =>
    intro c hc
    by_cases hcond : (dtLtb now (DateTime.combine now.day t) &&
        decide ((DateTime.combine now.day t).weekday < 5)) = true
    · simp only [scanMarks, hcond, if_true] at hc
      rcases Bool.and_eq_true_iff.mp hcond with ⟨hlt, hwd⟩
      have hc' : c = DateTime.combine now.day t := (Option.some_inj.mp hc).symm
      subst hc'
      exact ⟨(dtLtb_eq_true_iff _ _).mp hlt, of_decide_eq_true hwd⟩
    · simp only [scanMarks, hcond, if_false] at hc
      exact ih c hc

/-- C5: for a non-empty mark list, `get_next_run` returns an instant on a
weekday (never Saturday/Sunday) that is strictly later than `now`; a mark
exactly equal to `now` never qualifies. -/
theorem get_next_run_weekday_strict_future (now : DateTime) (rt : List ℕ)
    (h : rt ≠ []) :
    ∃ r, get_next_run now rt = some r ∧ r.weekday < 5 ∧ DateTime.lt now r := by
  cases hscan : scanMarks now rt with
  | some c =>
    refine ⟨c, ?_, ?_, ?_⟩
    · simp [get_next_run, hscan]
    · exact (scanMarks_sound now rt c hscan).2
    · exact (scanMarks_sound now rt c hscan).1
  | none =>
    cases rt with
    | nil => exact absurd rfl h
    | cons t0 rest =>
      refine ⟨DateTime.combine (skipWeekend (now.day + 1)) t0, ?_, ?_, ?_⟩
      · simp [get_next_run, hscan]
      · have hw := (skipWeekendAux_spec (now.day + 1)).1
        simpa [DateTime.weekday, DateTime.combine, skipWeekend] using hw
      · have h2 := (skipWeekendAux_spec (now.day + 1)).2.1
        exact Or.inl (by simp only [DateTime.combine, skipWeekend] at *; omega)

/-- C5 witness: the strict-future theorem at Monday 10:00 with marks 09:30, 15:30. -/
theorem get_next_run_weekday_strict_future_witness :
    ∃ r, get_next_run ⟨0, 600⟩ [570, 930] = some r ∧ r.weekday < 5 ∧
      DateTime.lt ⟨0, 600⟩ r :=
  get_next_run_weekday_strict_future ⟨0, 600⟩ [570, 930] (by decide)

theorem skipWeekendAux_one : skipWeekendAux 1 = (1, 0) :=
  skipWeekendAux_stop 1 (by decide)

theorem skipWeekendAux_seven : skipWeekendAux 7 = (7, 0) :=
  skipWeekendAux_stop 7 (by decide)

theorem skipWeekendAux_six : skipWeekendAux 6 = (7, 1) := by
  rw [skipWeekendAux_step 6 (by decide), show (6 : ℤ) + 1 = 7 from by norm_num,
    skipWeekendAux_seven]

theorem skipWeekendAux_five : skipWeekendAux 5 = (7, 2) := by
  rw [skipWeekendAux_step 5 (by decide), show (5 : ℤ) + 1 = 6 from by norm_num,
    skipWeekendAux_six]

/-- C9: the spec's four examples with marks [09:30, 15:30] (570 and 930 minutes);
day 0 is a Monday, 1 Tuesday, 4 Friday, 5 Saturday, 7 the following Monday:
Monday 10:00 → Monday 15:30; Monday 16:00 → Tuesday 09:30; Friday 16:00 →
Monday 09:30; Saturday 10:00 → Monday 09:30. -/
theorem get_next_run_examples :
    get_next_run ⟨0, 600⟩ [570, 930] = some ⟨0, 930⟩ ∧
    get_next_run ⟨0, 960⟩ [570, 930] = some ⟨1, 570⟩ ∧
    get_next_run ⟨4, 960⟩ [570, 930] = some ⟨7, 570⟩ ∧
    get_next_run ⟨5, 600⟩ [570, 930] = some ⟨7, 570⟩ := by
  refine ⟨rfl, ?_, ?_, ?_⟩
  · have hs : scanMarks ⟨0, 960⟩ [570, 930] = none := rfl
    simp only [get_next_run, hs]
    norm_num [DateTime.combine, skipWeekend, skipWeekendAux_one]
  · have hs : scanMarks ⟨4, 960⟩ [570, 930] = none := rfl
    simp only [get_next_run, hs]
    norm_num [DateTime.combine, skipWeekend, skipWeekendAux_five]
  · have hs : scanMarks ⟨5, 600⟩ [570, 930] = none := rfl
    simp only [get_next_run, hs]
    norm_num [DateTime.combine, skipWeekend, skipWeekendAux_six]

/-- C10: `get_next_run` terminates for a non-empty mark list: the only loop, the
weekend skip, executes at most two iterations (at most two consecutive days are
Saturday or Sunday), and a result is always produced. -/
theorem skipWeekend_iterations_le_two (now : DateTime) (rt : List ℕ) (h : rt ≠ []) :
    (get_next_run now rt).isSome = true ∧ (skipWeekendAux (now.day + 1)).2 ≤ 2 := by
  constructor
  · cases hscan : scanMarks now rt with
    | some c => simp [get_next_run, hscan]
    | none =>
      cases rt with
      | nil => exact absurd rfl h
      | cons t0 rest => simp [get_next_run, hscan]
  · exact (skipWeekendAux_spec (now.day + 1)).2.2.2

/-- C10 witness: the termination theorem applied at Friday 16:00 (the fallback
path that actually runs the weekend-skip loop). -/
theorem skipWeekend_iterations_le_two_witness :
    (get_next_run ⟨4, 960⟩ [570, 930]).isSome = true ∧
    (skipWeekendAux ((4 : ℤ) + 1)).2 ≤ 2 := by
  have h := skipWeekend_iterations_le_two ⟨4, 960⟩ [570, 930] (by decide)
  exact h

/-! ### Decision extraction from a job result (`run_once`, source lines 130-142) -/

/-- The `final_decision` field of a job result: a structured object, a string
needing a second parse, or anything unusable (modelled as `null`). -/
inductive FinalDecision where
  | obj (d : Decision)
  | str (s : String)
  | null
  deriving Repr

/-- Consume an expected literal from the front of the input. -/
def dropLit : List Char → List Char → Option (List Char)
  | [], s => some s
  | _ :: _, [] => none
  | p :: ps, c :: cs => if c = p then dropLit ps cs else none

/-- Read a JSON string body up to and including the closing quote. -/
def takeStr (s : List Char) : Option (List Char × List Char) :=
  match s.dropWhile (fun c => decide (c ≠ '"')) with
  | [] => none
  | _ :: rest => some (s.takeWhile (fun c => decide (c ≠ '"')), rest)

/-- Read a decimal natural number from the front of the input. -/
def parseNatChars (s : List Char) : Option (ℕ × List Char) :=
  let ds := s.takeWhile Char.isDigit
  if ds.isEmpty then none
  else some (ds.foldl (fun acc c => 10 * acc + (c.toNat - 48)) 0,
    s.dropWhile Char.isDigit)

def jsonHead : List Char := "\x7b\"action\":\"".data

def keyTail : List Char := ",\"quantity\":".data

/-- `json.loads` restricted to the canonical serialization of a decision object
(`\x7b"action": string, "quantity": nat\x7d`, no spaces), composed with the
`isinstance(decision, dict)` check of `run_once`: a string outside this
fragment yields `none`, modelling both a parse failure and a non-dict value. -/
def parseDecisionChars (s : List Char) : Option Decision :=
  (dropLit jsonHead s).bind fun s1 =>
    (takeStr s1).bind fun p =>
      (dropLit keyTail p.2).bind fun s3 =>
        (parseNatChars s3).bind fun r =>
          if r.2 = ['\x7d'] then some ⟨some (String.mk p.1), (r.1 : ℤ)⟩ else none

def parse_decision_string (s : String) : Option Decision := parseDecisionChars s.data

/-- Decimal digits of `n`, most significant first (`"0"` for zero). -/
def natChars (n : ℕ) : List Char :=
  if n = 0 then ['0'] else (Nat.digits 10 n).reverse.map Nat.digitChar

/-- The canonical JSON serialization of the decision object, exactly as in the
spec's example string. -/
def serializeDecisionChars (a : List Char) (q : ℕ) : List Char :=
  jsonHead ++ a ++ '"' :: (keyTail ++ (natChars q ++ ['\x7d']))

def serialize_decision (a : String) (q : ℕ) : String :=
  String.mk (serializeDecisionChars a.data q)

theorem dropLit_append (pat rest : List Char) : dropLit pat (pat ++ rest) = some rest := by
  induction pat with
  | nil => rfl
  | cons c cs ih => simp [dropLit, ih]

theorem takeWhile_append_all {p : Char → Bool} (l1 l2 : List Char)
    (h : ∀ c ∈ l1, p c = true) :
    (l1 ++ l2).takeWhile p = l1 ++ l2.takeWhile p := by
  induction l1 with
  | nil => rfl
  | cons c cs ih =>
    have hc : p c = true := h c (List.mem_cons_self _ _)
    simp [List.takeWhile, hc, ih (fun x hx => h x (List.mem_cons_of_mem _ hx))]

theorem dropWhile_append_all {p : Char → Bool} (l1 l2 : List Char)
    (h : ∀ c ∈ l1, p c = true) :
    (l1 ++ l2).dropWhile p = l2.dropWhile p := by
  induction l1 with
  | nil => rfl
  | cons c cs ih =>
    have hc : p c = true := h c (List.mem_cons_self _ _)
    simp [List.dropWhile, hc, ih (fun x hx => h x (List.mem_cons_of_mem _ hx))]

theorem takeStr_append (a rest : List Char) (h : ∀ c ∈ a, c ≠ '"') :
    takeStr (a ++ '"' :: rest) = some (a, rest) := by
  have hall : ∀ c ∈ a, (fun c => decide (c ≠ '"')) c = true := by
    intro c hc
    simpa using h c hc
  unfold takeStr
  rw [dropWhile_append_all a _ hall, takeWhile_append_all a _ hall]
  simp [List.dropWhile, List.takeWhile]

theorem digitChar_isDigit (x : ℕ) (h : x < 10) : (Nat.digitChar x).isDigit = true := by
  interval_cases x <;> decide

theorem digitChar_toNat (x : ℕ) (h : x < 10) : (Nat.digitChar x).toNat - 48 = x := by
  interval_cases x <;> decide

theorem foldr_ofDigits (ds : List ℕ) :
    List.foldr (fun x acc => 10 * acc + x) 0 ds = Nat.ofDigits 10 ds := by
  induction ds with
  | nil => simp [Nat.ofDigits]
  | cons d rest ih =>
    simp only [List.foldr_cons, Nat.ofDigits_cons, ih]
    ring

theorem foldr_digitChar_eq (L : List ℕ) (h : ∀ x ∈ L, x < 10) :
    List.foldr (fun x acc => 10 * acc + ((Nat.digitChar x).toNat - 48)) 0 L =
    List.foldr (fun x acc => 10 * acc + x) 0 L := by
  induction L with
  | nil => rfl
  | cons d rest ih =>
    simp only [List.foldr_cons]
    rw [ih (fun x hx => h x (List.mem_cons_of_mem _ hx)),
      digitChar_toNat d (h d (List.mem_cons_self _ _))]

theorem natChars_foldl (n : ℕ) :
    (natChars n).foldl (fun acc c => 10 * acc + (c.toNat - 48)) 0 = n := by
  by_cases h0 : n = 0
  · subst h0
    decide
  · unfold natChars
    rw [if_neg h0, List.map_reverse, List.foldl_reverse, List.foldr_map]
    have hlt : ∀ x ∈ Nat.digits 10 n, x < 10 := fun x hx =>
      Nat.digits_lt_base (by norm_num) hx
    rw [foldr_digitChar_eq _ hlt, foldr_ofDigits, Nat.ofDigits_digits]

theorem natChars_digits (n : ℕ) : ∀ c ∈ natChars n, c.isDigit = true := by
  intro c hc
  by_cases h0 : n = 0
  · subst h0
    simp [natChars] at hc
    subst hc
    decide
  · simp only [natChars, if_neg h0] at hc
    obtain ⟨x, hx, rfl⟩ := List.mem_map.mp hc
    exact digitChar_isDigit x (Nat.digits_lt_base (by norm_num) (List.mem_reverse.mp hx))

theorem natChars_ne_nil (n : ℕ) : natChars n ≠ [] := by
  by_cases h0 : n = 0
  · subst h0
    simp [natChars]
  · simp [natChars, if_neg h0, Nat.digits_ne_nil_iff_ne_zero, h0]

theorem parseNatChars_append (q : ℕ) :
    parseNatChars (natChars q ++ ['\x7d']) = some (q, ['\x7d']) := by
  have hall : ∀ c ∈ natChars q, Char.isDigit c = true := natChars_digits q
  unfold parseNatChars
  rw [takeWhile_append_all _ _ hall, dropWhile_append_all _ _ hall]
  have ht : List.takeWhile Char.isDigit ['\x7d'] = [] := rfl
  have hd : List.dropWhile Char.isDigit ['\x7d'] = ['\x7d'] := rfl
  rw [ht, hd, List.append_nil]
  have hne : (natChars q).isEmpty = false := by
    cases hnc : natChars q with
    | nil => exact absurd hnc (natChars_ne_nil q)
    | cons a l => rfl
  simp [hne, natChars_foldl q]

theorem parse_serialize (a : String) (q : ℕ)
    (h : ∀ c ∈ a.data, c ≠ '"' ∧ c ≠ '\\') :
    parse_decision_string (serialize_decision a q) = some ⟨some a, (q : ℤ)⟩ := by
  show parseDecisionChars (serializeDecisionChars a.data q) = some ⟨some a, (q : ℤ)⟩
  unfold serializeDecisionChars parseDecisionChars
  rw [List.append_assoc, dropLit_append]
  simp only [Option.bind]
  rw [takeStr_append a.data _ (fun c hc => (h c hc).1)]
  simp only [Option.bind]
  rw [dropLit_append]
  simp only [Option.bind]
  rw [parseNatChars_append]
  simp only [Option.bind]
  simp

/-- Lines 131-136 of `run_once`: extract the decision; a string payload gets a
second parse, and anything that is not a dict in the end is unusable. -/
def extract_decision : FinalDecision → Option Decision
  | .obj d => some d
  | .str s => parse_decision_string s
  | .null => none

/-- Lines 131-142 of `run_once`: fold one job result into the portfolio —
apply the decision when usable, then refresh the cached price regardless. -/
def apply_result (port : Portfolio) (ticker : String) (fd : FinalDecision)
    (price : ℚ) : Portfolio :=
  match extract_decision fd with
  | some d => update_price (apply_decision port ticker d price) ticker price
  | none => update_price port ticker price

/-- C8: a job result whose `final_decision` is the canonical JSON-string
serialization of a decision produces exactly the same ledger state as the
structured decision delivered natively (for action strings free of embedded
quotes and backslashes, which the canonical serialization presupposes). -/
theorem apply_result_string_eq_obj (port : Portfolio) (t : String) (price : ℚ)
    (a : String) (q : ℕ) (h : ∀ c ∈ a.data, c ≠ '"' ∧ c ≠ '\\') :
    apply_result port t (FinalDecision.str (serialize_decision a q)) price =
      apply_result port t (FinalDecision.obj ⟨some a, (q : ℤ)⟩) price := by
  unfold apply_result extract_decision
  dsimp only
  rw [parse_serialize a q h]

/-- C8 witness: the spec's example, with the string from the spec built by the
serializer: a buy of 10 applied from a string equals the native object form. -/
theorem apply_result_string_eq_obj_witness :
    apply_result ⟨1000, []⟩ "AAPL"
      (FinalDecision.str (serialize_decision "buy" 10)) 5 =
      apply_result ⟨1000, []⟩ "AAPL" (FinalDecision.obj ⟨some "buy", (10 : ℤ)⟩) 5 :=
  apply_result_string_eq_obj ⟨1000, []⟩ "AAPL" 5 "buy" 10 (by decide)

/-! ### The per-ticker pass (`run_once`, source lines 115-142) -/

/-- The remote world's behaviour for one ticker during a pass: the price fetch
(`none` = failure, degraded to a zero price inside `get_latest_price`), the
job submission (`Except.error` = transport error that propagates; `Except.ok
none` = response without a run id), polling, and the result fetch. Polling and
fetching have no local error handling, so their transport errors propagate. -/
structure RemoteOutcome where
  price : Option ℚ
  start : Except Unit (Option String)
  poll : Except Unit Unit
  fetch : Except Unit FinalDecision

def isOkE {α : Type} : Except Unit α → Bool
  | .ok _ => true
  | .error _ => false

/-- `run_once` (source lines 115-142): walk the ticker list in order; returns
the final portfolio, the list of tickers whose loop body ran to completion (in
order), and whether the pass was aborted by a propagated exception. -/
def run_once_model (outcomes : String → RemoteOutcome) :
    List String → Portfolio → Portfolio × List String × Bool
  | [], port => (port, [], false)
  | t :: rest, port =>
    let o := outcomes t
    let price := o.price.getD 0
    let port1 :=
      if (findPos port.positions t).isSome then update_price port t price else port
    match o.start with
    | .error _ => (port1, [], true)
    | .ok none =>
      let r := run_once_model outcomes rest port1
      (r.1, t :: r.2.1, r.2.2)
    | .ok (some _) =>
      match o.poll with
      | .error _ => (port1, [], true)
      | .ok _ =>
        match o.fetch with
        | .error _ => (port1, [], true)
        | .ok fd =>
          let r := run_once_model outcomes rest (apply_result port1 t fd price)
          (r.1, t :: r.2.1, r.2.2)

/-- Outcomes refuting C4: ticker "A"'s result fetch raises a transport error;
every other call succeeds. -/
def cexOutcomes : String → RemoteOutcome := fun t =>
  if t = "A" then ⟨some 10, Except.ok (some "r"), Except.ok (), Except.error ()⟩
  else ⟨some 10, Except.ok (some "r"), Except.ok (), Except.ok FinalDecision.null⟩

/-- C4 counterexample: with ticker list ["A", "B"], a transport failure while
fetching "A"'s result aborts the pass — no ticker completes and "B" is never
processed — because `run_once` has no try/except around `fetch_result`. -/
theorem run_once_fetch_failure_aborts :
    (run_once_model cexOutcomes ["A", "B"] ⟨100, []⟩).2 = ([], true) := by
  rfl

/-- C4 (amended): parse failures are tolerated but transport failures are not:
when every ticker's submission, polling and result fetch return without a
transport error, the pass processes all tickers in list order and never aborts
— even when the delivered decisions are unusable (e.g. unparseable strings);
a transport error, by contrast, aborts the pass (see the counterexample). -/
theorem run_once_processes_all_ok (outcomes : String → RemoteOutcome)
    (tickers : List String) (port : Portfolio)
    (h : ∀ t ∈ tickers, isOkE (outcomes t).start = true ∧
      isOkE (outcomes t).poll = true ∧ isOkE (outcomes t).fetch = true) :
    (run_once_model outcomes tickers port).2.1 = tickers ∧
    (run_once_model outcomes tickers port).2.2 = false := by
  induction tickers generalizing port with
  | nil => exact ⟨rfl, rfl⟩
  | cons t rest ih =>
    obtain ⟨hs, hp, hf⟩ := h t (List.mem_cons_self _ _)
    have hrest : ∀ t' ∈ rest, isOkE (outcomes t').start = true ∧
        isOkE (outcomes t').poll = true ∧ isOkE (outcomes t').fetch = true :=
      fun t' ht' => h t' (List.mem_cons_of_mem _ ht')
    cases hst : (outcomes t).start with
    | error e => rw [hst] at hs; cases hs
    | ok ro =>
      cases hpo : (outcomes t).poll with
      | error e => rw [hpo] at hp; cases hp
      | ok u =>
        cases hfe : (outcomes t).fetch with
        | error e => rw [hfe] at hf; cases hf
        | ok fd =>
          cases ro with
          | none =>
            simp only [run_once_model, hst]
            constructor
            · simp [(ih _ hrest).1]
            · simp [(ih _ hrest).2]
          | some rid =>
            simp only [run_once_model, hst, hpo, hfe]
            constructor
            · simp [(ih _ hrest).1]
            · simp [(ih _ hrest).2]

/-- Outcomes for the C4 witness: everything succeeds at the transport level but
the decision payload is an unparseable string. -/
def okOutcomes : String → RemoteOutcome := fun _ =>
  ⟨some 10, Except.ok (some "r"), Except.ok (), Except.ok (FinalDecision.str "garbage")⟩

/-- C4 witness: with transport-clean outcomes whose decisions are unparseable
strings, both tickers of ["A", "B"] are processed and the pass is not aborted. -/
theorem run_once_processes_all_ok_witness :
    (run_once_model okOutcomes ["A", "B"] ⟨100, []⟩).2.1 = ["A", "B"] ∧
    (run_once_model okOutcomes ["A", "B"] ⟨100, []⟩).2.2 = false :=
  run_once_processes_all_ok okOutcomes ["A", "B"] ⟨100, []⟩ (by decide)
